import Mathlib

/-!
Shallow embedding of `src/src/lexer.rs` (the `tokenize` function and its
token data model) and proofs about it.

Modelling conventions:
* Rust `&str` input is modelled as a `List Char`; spans (`start`, `end`)
  are UTF-8 byte offsets, computed with `Char.utf8Size`, exactly as Rust
  byte offsets relate to `char`s.
* The scan loop `while index < source_code.len()` advances by at least one
  byte per iteration, so a fuel argument equal to the number of remaining
  characters suffices; the fuel-zero row is unreachable for sufficient fuel
  (`tokenizeFuel_congr` below proves fuel-irrelevance).
* The `else` branch of the Rust loop does `index += 1` without emitting a
  token.  When the current character occupies a single byte this lands on
  the next character; when it is a multi-byte character, the next
  iteration's slice `&source_code[index..]` is taken at a non-character
  boundary and Rust panics.  The embedding returns `Except.error ()` for
  that panic, and `Except.ok` with the token list for a normal return.
* The regex crate uses leftmost-first alternation, so
  `^(\n|\r|\r\n)` always matches a single character (the repository's own
  `tokenize_line_break` test confirms `"\r\n"` lexes as two tokens).
* `\b` in `keywords_regex` is a Unicode word boundary.  ASCII word
  characters are `[A-Za-z0-9_]`; non-ASCII characters are approximated as
  word characters here (all inputs in the properties below are ASCII, and
  no keyword can be followed by a non-ASCII word/non-word distinction in
  any statement proved in this file).
-/

/-- TokenType from `src/src/lexer.rs` lines 3-38, all variants verbatim.
Note the source declares `Error` and `EOF` variants; whether `tokenize`
ever produces them is settled by theorems below. -/
inductive TokenType where
  | PluginKeyword
  | UseKeyword
  | PropKeyword
  | EnumKeyword
  | TypeKeyword
  | ModelKeyword
  | StringType
  | NumberType
  | BooleanType
  | TextType
  | DateType
  | StringLiteral
  | NumberLiteral
  | BooleanLiteral
  | OpenBrace
  | CloseBrace
  | OpenParen
  | CloseParen
  | OpenSquare
  | CloseSquare
  | AtSymbol
  | Optional
  | Identifier
  | LineBreak
  | Comment
  | Error
  | EOF
deriving DecidableEq, Repr

/-- Token struct from `src/src/lexer.rs` lines 40-46. -/
structure Token where
  token_type : TokenType
  value : String
  start : Nat
  stop : Nat
deriving DecidableEq, Repr

/-- create_token from `src/src/lexer.rs` lines 48-55. -/
def create_token (token_type : TokenType) (value : String) (start stop : Nat) : Token :=
  { token_type := token_type, value := value, start := start, stop := stop }

/-- Total UTF-8 byte length of a character list (Rust `str::len`). -/
def utf8Len : List Char → Nat
  | [] => 0
  | c :: cs => c.utf8Size + utf8Len cs

/-- ASCII word characters `[A-Za-z0-9_]` of the regex crate's `\b`,
with non-ASCII characters approximated as word characters (see header). -/
def isWordChar (c : Char) : Bool :=
  c.isAlphanum || c == '_' || decide (128 ≤ c.toNat)

/-- After a keyword of `n` characters, `\b` holds iff the input is
exhausted or the next character is not a word character. -/
def wordBoundaryAfter (cs : List Char) (n : Nat) : Bool :=
  match cs.drop n with
  | [] => true
  | c :: _ => !(isWordChar c)

/-- The keyword alternation of `keywords_regex` (line 63) together with the
`match matched_keyword` arms of lines 93-105 pairing each spelling with its
TokenType.  No keyword is a prefix of another, so alternation order is
irrelevant and the `_ => Identifier` arm of line 105 is unreachable. -/
def keywords : List (String × TokenType) :=
  [("plugin", TokenType.PluginKeyword),
   ("use", TokenType.UseKeyword),
   ("prop", TokenType.PropKeyword),
   ("enum", TokenType.EnumKeyword),
   ("type", TokenType.TypeKeyword),
   ("model", TokenType.ModelKeyword),
   ("String", TokenType.StringType),
   ("Number", TokenType.NumberType),
   ("Boolean", TokenType.BooleanType),
   ("Text", TokenType.TextType),
   ("Date", TokenType.DateType)]

/-- Anchored match of `line_break_regex = ^(\n|\r|\r\n)` (line 61):
leftmost-first alternation always yields a single-character match.
Returns the number of characters matched. -/
def lineBreakMatch : List Char → Option Nat
  | [] => none
  | c :: _ => if c == '\n' || c == '\r' then some 1 else none

/-- Anchored match of `string_literal_regex = ^"([^"]+)"` (line 65): an
opening quote, one or more non-quote characters, and a closing quote.
Returns the number of characters matched. -/
def stringLitMatch : List Char → Option Nat
  | [] => none
  | c :: rest =>
    if c == '"' then
      let body := rest.takeWhile (fun d => !(d == '"'))
      if 1 ≤ body.length ∧ body.length < rest.length then some (body.length + 2)
      else none
    else none

/-- Anchored match of `keywords_regex` (line 63): some keyword spelling is
a prefix of the input and a word boundary follows it.  Returns the number
of characters matched and the TokenType of lines 93-105. -/
def keywordMatch (cs : List Char) : Option (Nat × TokenType) :=
  match keywords.find?
      (fun p => p.1.data.isPrefixOf cs && wordBoundaryAfter cs p.1.data.length) with
  | some p => some (p.1.data.length, p.2)
  | none => none

def isIdentStart (c : Char) : Bool := c.isAlpha || c == '_'

def isIdentChar (c : Char) : Bool := c.isAlphanum || c == '_'

/-- Anchored match of `identifier_regex = ^[a-zA-Z_][a-zA-Z0-9_]*`
(line 64), greedy.  Returns the number of characters matched. -/
def identMatch : List Char → Option Nat
  | [] => none
  | c :: rest =>
    if isIdentStart c then some (1 + (rest.takeWhile isIdentChar).length) else none

/-- The priority chain of the scan loop body (lines 70-121): line break
first, then string literal (line 82: checked before keywords), then
keywords, then identifier.  Returns the matched character count and the
TokenType pushed, or `none` when the `else` branch of line 118 runs. -/
def ruleMatch (cs : List Char) : Option (Nat × TokenType) :=
  match lineBreakMatch cs with
  | some n => some (n, TokenType.LineBreak)
  | none =>
    match stringLitMatch cs with
    | some n => some (n, TokenType.StringLiteral)
    | none =>
      match keywordMatch cs with
      | some r => some r
      | none =>
        match identMatch cs with
        | some n => some (n, TokenType.Identifier)
        | none => none

/-- The scan loop of `tokenize` (lines 57-125).  `cs` is the remaining
input (the slice `&source_code[index..]`), `i` the byte value of `index`.
A match pushes `create_token` on the matched text with span
`[index, index + len)` and advances by the matched byte length; otherwise
`index += 1`, which silently skips a one-byte character and panics
(`Except.error ()`) on the next slice when the character was multi-byte. -/
def tokenizeFuel : Nat → List Char → Nat → Except Unit (List Token)
  | 0, _, _ => Except.ok []
  | _ + 1, [], _ => Except.ok []
  | fuel + 1, c :: cs, i =>
    match ruleMatch (c :: cs) with
    | some (n, tt) =>
      Except.map
        (fun ts =>
          create_token tt (String.mk ((c :: cs).take n)) i
            (i + utf8Len ((c :: cs).take n)) :: ts)
        (tokenizeFuel fuel ((c :: cs).drop n) (i + utf8Len ((c :: cs).take n)))
    | none =>
      if c.utf8Size = 1 then tokenizeFuel fuel cs (i + 1) else Except.error ()

/-- tokenize from `src/src/lexer.rs` lines 57-125.  `Except.ok ts` models a
normal return of the token vector, `Except.error ()` models the panic of
slicing at a non-character boundary. -/
def tokenize (s : String) : Except Unit (List Token) :=
  tokenizeFuel s.data.length s.data 0

/-- Concatenation of the `value` fields of a token list, as a String. -/
def concatValues (ts : List Token) : String :=
  String.mk (ts.foldr (fun t r => t.value.data ++ r) [])

/-- The spans of `ts` tile the byte interval from `a` to `b` exactly:
first token starts at `a`, each token starts where the previous one ended,
last token ends at `b` (the spec's span-contiguity condition). -/
def covers : List Token → Nat → Nat → Bool
  | [], a, b => a == b
  | t :: ts, a, b => (t.start == a) && covers ts t.stop b

/-- Drop a prefix of the given UTF-8 byte length (aligned offsets only). -/
def dropBytes : List Char → Nat → List Char
  | cs, 0 => cs
  | [], _ + 1 => []
  | c :: cs, n + 1 => dropBytes cs (n + 1 - c.utf8Size)

/-- Take a prefix of the given UTF-8 byte length (aligned offsets only). -/
def takeBytes : List Char → Nat → List Char
  | _, 0 => []
  | [], _ + 1 => []
  | c :: cs, n + 1 => c :: takeBytes cs (n + 1 - c.utf8Size)

/-- The byte slice `buffer[a..b]` of the spec, at aligned offsets. -/
def byteSlice (s : String) (a b : Nat) : List Char :=
  takeBytes (dropBytes s.data a) (b - a)

/-! ## Basic lemmas about byte lengths and byte slices -/

theorem utf8Len_append (xs ys : List Char) :
    utf8Len (xs ++ ys) = utf8Len xs + utf8Len ys := by
  induction xs with
  | nil => simp [utf8Len]
  | cons x xs ih => simp [utf8Len, ih]; omega

theorem utf8Len_cons_pos (c : Char) (cs : List Char) : 1 ≤ utf8Len (c :: cs) := by
  have := Char.utf8Size_pos c
  simp only [utf8Len]
  omega

theorem utf8Len_eq_zero {cs : List Char} (h : utf8Len cs = 0) : cs = [] := by
  cases cs with
  | nil => rfl
  | cons c cs =>
    have := Char.utf8Size_pos c
    simp only [utf8Len] at h
    omega

theorem takeBytes_utf8Len (xs ys : List Char) : takeBytes (xs ++ ys) (utf8Len xs) = xs := by
  induction xs with
  | nil => simp [utf8Len, takeBytes]
  | cons x xs ih =>
    have hpos := Char.utf8Size_pos x
    obtain ⟨m, hm⟩ : ∃ m, utf8Len (x :: xs) = m + 1 :=
      ⟨utf8Len (x :: xs) - 1, by simp only [utf8Len]; omega⟩
    rw [List.cons_append, hm, takeBytes]
    have hsub : m + 1 - x.utf8Size = utf8Len xs := by simp only [utf8Len] at hm; omega
    rw [hsub, ih]

theorem dropBytes_utf8Len (xs ys : List Char) (k : Nat) :
    dropBytes (xs ++ ys) (utf8Len xs + k) = dropBytes ys k := by
  induction xs with
  | nil => simp [utf8Len]
  | cons x xs ih =>
    have hpos := Char.utf8Size_pos x
    obtain ⟨m, hm⟩ : ∃ m, utf8Len (x :: xs) + k = m + 1 :=
      ⟨utf8Len (x :: xs) + k - 1, by simp only [utf8Len]; omega⟩
    rw [List.cons_append, hm, dropBytes]
    have hsub : m + 1 - x.utf8Size = utf8Len xs + k := by simp only [utf8Len] at hm; omega
    rw [hsub, ih]

theorem utf8Len_take_drop (l : List Char) (n : Nat) :
    utf8Len l = utf8Len (l.take n) + utf8Len (l.drop n) := by
  have h := utf8Len_append (l.take n) (l.drop n)
  rwa [List.take_append_drop] at h

theorem takeBytes_take (l : List Char) (n : Nat) :
    takeBytes l (utf8Len (l.take n)) = l.take n := by
  have h := takeBytes_utf8Len (l.take n) (l.drop n)
  rwa [List.take_append_drop] at h

theorem dropBytes_take_drop (l : List Char) (n k : Nat) :
    dropBytes l (utf8Len (l.take n) + k) = dropBytes (l.drop n) k := by
  have h := dropBytes_utf8Len (l.take n) (l.drop n) k
  rwa [List.take_append_drop] at h

theorem dropBytes_cons_one {c : Char} (h : c.utf8Size = 1) (cs : List Char) (k : Nat) :
    dropBytes (c :: cs) (k + 1) = dropBytes cs k := by
  rw [dropBytes, h]
  simp

/-! ## Inversion lemmas for the matchers -/

theorem except_map_ok {α β : Type} {g : α → β} {x : Except Unit α} {y : β}
    (h : Except.map g x = Except.ok y) : ∃ a, x = Except.ok a ∧ g a = y := by
  cases x with
  | error e => simp [Except.map] at h
  | ok a => exact ⟨a, rfl, by simpa [Except.map] using h⟩

theorem lineBreakMatch_some {cs : List Char} {n : Nat}
    (h : lineBreakMatch cs = some n) : n = 1 := by
  cases cs with
  | nil => simp [lineBreakMatch] at h
  | cons c cs =>
    simp only [lineBreakMatch] at h
    split at h
    · exact (Option.some.inj h).symm
    · simp at h

theorem stringLitMatch_some {cs : List Char} {n : Nat}
    (h : stringLitMatch cs = some n) : 3 ≤ n := by
  cases cs with
  | nil => simp [stringLitMatch] at h
  | cons c rest =>
    simp only [stringLitMatch] at h
    split at h
    · split at h
      · rename_i hcond
        have hn := Option.some.inj h
        omega
      · simp at h
    · simp at h

theorem keywords_facts :
    ∀ p ∈ keywords, 1 ≤ p.1.data.length ∧ p.2 ≠ TokenType.EOF ∧ p.2 ≠ TokenType.Error := by
  decide

theorem keywordMatch_some {cs : List Char} {n : Nat} {tt : TokenType}
    (h : keywordMatch cs = some (n, tt)) :
    1 ≤ n ∧ tt ≠ TokenType.EOF ∧ tt ≠ TokenType.Error := by
  unfold keywordMatch at h
  cases hf : keywords.find?
      (fun p => p.1.data.isPrefixOf cs && wordBoundaryAfter cs p.1.data.length) with
  | none =>
    simp only [hf] at h
    exact absurd h (by simp)
  | some p =>
    simp only [hf, Option.some.injEq, Prod.mk.injEq] at h
    obtain ⟨hn, htt⟩ := h
    have hp := keywords_facts p (List.mem_of_find?_eq_some hf)
    exact ⟨hn ▸ hp.1, htt ▸ hp.2.1, htt ▸ hp.2.2⟩

theorem identMatch_some {cs : List Char} {n : Nat}
    (h : identMatch cs = some n) : 1 ≤ n := by
  cases cs with
  | nil => simp [identMatch] at h
  | cons c rest =>
    simp only [identMatch] at h
    split at h
    · have hn := Option.some.inj h
      omega
    · simp at h

theorem ruleMatch_spec {cs : List Char} {n : Nat} {tt : TokenType}
    (h : ruleMatch cs = some (n, tt)) :
    1 ≤ n ∧ tt ≠ TokenType.EOF ∧ tt ≠ TokenType.Error := by
  unfold ruleMatch at h
  cases h1 : lineBreakMatch cs with
  | some m =>
    simp only [h1, Option.some.injEq, Prod.mk.injEq] at h
    obtain ⟨rfl, rfl⟩ := h
    have := lineBreakMatch_some h1
    exact ⟨by omega, by simp, by simp⟩
  | none =>
    simp only [h1] at h
    cases h2 : stringLitMatch cs with
    | some m =>
      simp only [h2, Option.some.injEq, Prod.mk.injEq] at h
      obtain ⟨rfl, rfl⟩ := h
      have := stringLitMatch_some h2
      exact ⟨by omega, by simp, by simp⟩
    | none =>
      simp only [h2] at h
      cases h3 : keywordMatch cs with
      | some r =>
        simp only [h3, Option.some.injEq] at h
        obtain ⟨m, tt'⟩ := r
        obtain ⟨rfl, rfl⟩ := Prod.mk.injEq .. ▸ h
        exact keywordMatch_some h3
      | none =>
        simp only [h3] at h
        cases h4 : identMatch cs with
        | some m =>
          simp only [h4, Option.some.injEq, Prod.mk.injEq] at h
          obtain ⟨rfl, rfl⟩ := h
          have := identMatch_some h4
          exact ⟨by omega, by simp, by simp⟩
        | none =>
          simp only [h4] at h
          exact absurd h (by simp)

/-! ## Fuel-irrelevance: length-many iterations always suffice -/

theorem tokenizeFuel_nil (f i : Nat) : tokenizeFuel f [] i = Except.ok [] := by
  cases f <;> rfl

theorem tokenizeFuel_congr :
    ∀ (f1 f2 : Nat) (cs : List Char) (i : Nat), cs.length ≤ f1 → cs.length ≤ f2 →
      tokenizeFuel f1 cs i = tokenizeFuel f2 cs i := by
  intro f1
  induction f1 with
  | zero =>
    intro f2 cs i h1 h2
    have hnil : cs = [] := List.eq_nil_of_length_eq_zero (Nat.le_zero.mp h1)
    subst hnil
    rw [tokenizeFuel_nil, tokenizeFuel_nil]
  | succ f ih =>
    intro f2 cs i h1 h2
    cases cs with
    | nil => rw [tokenizeFuel_nil, tokenizeFuel_nil]
    | cons c cs =>
      cases f2 with
      | zero => simp at h2
      | succ f2 =>
        simp only [List.length_cons] at h1 h2
        simp only [tokenizeFuel]
        cases hr : ruleMatch (c :: cs) with
        | some p =>
          obtain ⟨n, tt⟩ := p
          have hn := (ruleMatch_spec hr).1
          have hlen : ((c :: cs).drop n).length ≤ f := by
            simp only [List.length_drop, List.length_cons]
            omega
          have hlen2 : ((c :: cs).drop n).length ≤ f2 := by
            simp only [List.length_drop, List.length_cons]
            omega
          simp only [ih f2 ((c :: cs).drop n) (i + utf8Len ((c :: cs).take n)) hlen hlen2]
        | none =>
          simp only [ih f2 cs (i + 1) (by omega) (by omega)]

/-! ## Per-token invariant of the scan loop -/

/-- Invariant satisfied by every token emitted while scanning the suffix
`cs` that sits at byte offset `i` of the original buffer: the span starts
at or after `i`, is non-empty, stays within the suffix, its `value` is the
byte slice of the suffix at the span, and its kind is never `EOF` or
`Error`. -/
def goodToken (cs : List Char) (i : Nat) (t : Token) : Prop :=
  i ≤ t.start ∧ t.start < t.stop ∧ t.stop ≤ i + utf8Len cs ∧
    t.value.data = takeBytes (dropBytes cs (t.start - i)) (t.stop - t.start) ∧
    t.token_type ≠ TokenType.EOF ∧ t.token_type ≠ TokenType.Error

theorem tokenizeFuel_mem :
    ∀ (f : Nat) (cs : List Char) (i : Nat) (ts : List Token),
      tokenizeFuel f cs i = Except.ok ts → ∀ t ∈ ts, goodToken cs i t := by
  intro f
  induction f with
  | zero =>
    intro cs i ts h t ht
    simp only [tokenizeFuel, Except.ok.injEq] at h
    subst h
    simp at ht
  | succ f ih =>
    intro cs i ts h t ht
    cases cs with
    | nil =>
      simp only [tokenizeFuel, Except.ok.injEq] at h
      subst h
      simp at ht
    | cons c cs =>
      simp only [tokenizeFuel] at h
      split at h
      · rename_i p n tt heq
        rcases except_map_ok h with ⟨ts', hrec, hts⟩
        have hn := (ruleMatch_spec heq).1
        have hkind := (ruleMatch_spec heq).2
        have hLsplit := utf8Len_take_drop (c :: cs) n
        have hLpos : 1 ≤ utf8Len ((c :: cs).take n) := by
          obtain ⟨m, rfl⟩ : ∃ m, n = m + 1 := ⟨n - 1, by omega⟩
          rw [List.take_succ_cons]
          exact utf8Len_cons_pos c (cs.take m)
        rw [← hts] at ht
        simp only [List.mem_cons] at ht
        rcases ht with rfl | htl
        · refine ⟨Nat.le_refl _, ?_, ?_, ?_, hkind.1, hkind.2⟩
          · simp only [create_token]
            omega
          · simp only [create_token]
            omega
          · simp only [create_token, Nat.sub_self, Nat.add_sub_cancel_left]
            show ((c :: cs).take n) = takeBytes (dropBytes (c :: cs) 0) (utf8Len ((c :: cs).take n))
            rw [dropBytes, takeBytes_take]
        · have hg := ih ((c :: cs).drop n) (i + utf8Len ((c :: cs).take n)) ts' hrec t htl
          obtain ⟨g1, g2, g3, g4, g5, g6⟩ := hg
          refine ⟨by omega, g2, by omega, ?_, g5, g6⟩
          have hidx : t.start - i =
              utf8Len ((c :: cs).take n) + (t.start - (i + utf8Len ((c :: cs).take n))) := by
            omega
          rw [hidx, dropBytes_take_drop]
          exact g4
      · rename_i heq
        split at h
        · rename_i hsize
          have hg := ih cs (i + 1) ts h t ht
          obtain ⟨g1, g2, g3, g4, g5, g6⟩ := hg
          have hLen : utf8Len (c :: cs) = 1 + utf8Len cs := by
            simp only [utf8Len, hsize]
          refine ⟨by omega, g2, by omega, ?_, g5, g6⟩
          have hidx : t.start - i = (t.start - (i + 1)) + 1 := by omega
          rw [hidx, dropBytes_cons_one hsize]
          exact g4
        · simp at h

theorem tokenizeFuel_chain :
    ∀ (f : Nat) (cs : List Char) (i : Nat) (ts : List Token),
      tokenizeFuel f cs i = Except.ok ts →
      List.Chain' (fun a b => a.stop ≤ b.start) ts := by
  intro f
  induction f with
  | zero =>
    intro cs i ts h
    simp only [tokenizeFuel, Except.ok.injEq] at h
    subst h
    simp
  | succ f ih =>
    intro cs i ts h
    cases cs with
    | nil =>
      simp only [tokenizeFuel, Except.ok.injEq] at h
      subst h
      simp
    | cons c cs =>
      simp only [tokenizeFuel] at h
      split at h
      · rename_i p n tt heq
        rcases except_map_ok h with ⟨ts', hrec, hts⟩
        rw [← hts]
        rw [List.chain'_cons']
        constructor
        · intro y hy
          have hg := tokenizeFuel_mem f ((c :: cs).drop n)
            (i + utf8Len ((c :: cs).take n)) ts' hrec y (List.mem_of_mem_head? hy)
          simpa [create_token] using hg.1
        · exact ih ((c :: cs).drop n) (i + utf8Len ((c :: cs).take n)) ts' hrec
      · split at h
        · exact ih cs (i + 1) ts h
        · simp at h

theorem tokenizeFuel_concat :
    ∀ (f : Nat) (cs : List Char) (i : Nat) (ts : List Token),
      tokenizeFuel f cs i = Except.ok ts →
      covers ts i (i + utf8Len cs) = true →
      ts.foldr (fun t r => t.value.data ++ r) [] = cs := by
  intro f
  induction f with
  | zero =>
    intro cs i ts h hcov
    simp only [tokenizeFuel, Except.ok.injEq] at h
    subst h
    simp only [covers, beq_iff_eq] at hcov
    have hz : utf8Len cs = 0 := by omega
    rw [utf8Len_eq_zero hz]
    rfl
  | succ f ih =>
    intro cs i ts h hcov
    cases cs with
    | nil =>
      simp only [tokenizeFuel, Except.ok.injEq] at h
      subst h
      rfl
    | cons c cs =>
      simp only [tokenizeFuel] at h
      split at h
      · rename_i p n tt heq
        rcases except_map_ok h with ⟨ts', hrec, hts⟩
        rw [← hts] at hcov
        simp only [covers, Bool.and_eq_true, beq_iff_eq, create_token] at hcov
        have hLsplit := utf8Len_take_drop (c :: cs) n
        have hcov2 : covers ts' (i + utf8Len ((c :: cs).take n))
            ((i + utf8Len ((c :: cs).take n)) + utf8Len ((c :: cs).drop n)) = true := by
          have harg : i + utf8Len (c :: cs) =
              (i + utf8Len ((c :: cs).take n)) + utf8Len ((c :: cs).drop n) := by omega
          rw [← harg]
          exact hcov.2
        have hih := ih ((c :: cs).drop n) (i + utf8Len ((c :: cs).take n)) ts' hrec hcov2
        rw [← hts]
        simp only [List.foldr_cons, create_token]
        rw [hih]
        exact List.take_append_drop n (c :: cs)
      · rename_i heq
        split at h
        · rename_i hsize
          exfalso
          have hLen : utf8Len (c :: cs) = 1 + utf8Len cs := by
            simp only [utf8Len, hsize]
          cases ts with
          | nil =>
            simp only [covers, beq_iff_eq] at hcov
            omega
          | cons t ts' =>
            simp only [covers, Bool.and_eq_true, beq_iff_eq] at hcov
            have hg := tokenizeFuel_mem f cs (i + 1) (t :: ts') h t (List.mem_cons_self t ts')
            have := hg.1
            omega
        · simp at h

theorem string_mk_data (s : String) : String.mk s.data = s := rfl

/-! ## Claims -/

/-- C1 counterexample: the claim asserts span-contiguity/totality, but on
the one-byte input of a single space `tokenize` returns no tokens at all
(no rule matches a space and the `else` branch emits nothing), so
concatenating the token texts yields the empty string, not the input. -/
theorem C1_counterexample :
    tokenize (" ") = Except.ok [] ∧ concatValues [] ≠ (" ") :=
  ⟨rfl, by decide⟩

/-- C1 (amended): on every input where `tokenize` returns, the token
sequence is ordered with each token's `end` at most the next token's
`start`; and whenever the spans do tile the whole byte range `[0, |S|)`,
concatenating the token texts reproduces S exactly.  (In general bytes
matched by no rule are skipped without a token, so the tiling premise can
fail and the concatenation then reproduces only the matched bytes.) -/
theorem C1_ordered_and_conditional_reconstruction (s : String) (ts : List Token)
    (h : tokenize s = Except.ok ts) :
    List.Chain' (fun a b => a.stop ≤ b.start) ts ∧
      (covers ts 0 (utf8Len s.data) = true → concatValues ts = s) := by
  refine ⟨tokenizeFuel_chain _ _ _ _ h, ?_⟩
  intro hcov
  have hc : covers ts 0 (0 + utf8Len s.data) = true := by
    rw [Nat.zero_add]
    exact hcov
  have hf := tokenizeFuel_concat s.data.length s.data 0 ts h hc
  unfold concatValues
  rw [hf, string_mk_data]

/-- C1 witness: on the input consisting of the keyword model, the spans
tile the whole range and the concatenation equals the input. -/
theorem C1_witness :
    concatValues [create_token TokenType.ModelKeyword ("model") 0 5] = ("model") :=
  (C1_ordered_and_conditional_reconstruction ("model")
    [create_token TokenType.ModelKeyword ("model") 0 5] rfl).2 (by decide)

/-- C2 counterexample: `tokenize` applied to the empty string returns the
empty sequence, not a sequence containing one `EOF` token at `[0,0)`: the
loop body never appends an `EOF` sentinel (lines 122-124 return the
accumulated vector directly). -/
theorem C2_counterexample :
    tokenize ("") = Except.ok [] ∧
      tokenize ("") ≠ Except.ok [create_token TokenType.EOF ("") 0 0] :=
  ⟨rfl, fun h => List.noConfusion (Except.ok.inj h)⟩

/-- C2 (amended): `tokenize` never emits an `EOF` token for any input:
the returned sequence for the empty string is empty, and no token of any
returned sequence has kind `EOF`. -/
theorem C2_no_eof_token :
    tokenize ("") = Except.ok [] ∧
      ∀ (s : String) (ts : List Token), tokenize s = Except.ok ts →
        ∀ t ∈ ts, t.token_type ≠ TokenType.EOF :=
  ⟨rfl, fun _ _ h t ht => (tokenizeFuel_mem _ _ _ _ h t ht).2.2.2.2.1⟩

/-- C2 witness at the concrete input model. -/
theorem C2_witness :
    (create_token TokenType.ModelKeyword ("model") 0 5).token_type ≠ TokenType.EOF :=
  C2_no_eof_token.2 ("model") [create_token TokenType.ModelKeyword ("model") 0 5]
    rfl _ (by simp)

/-- C3 counterexample: on the unscannable input of a single hash mark the
scanner returns no token at all instead of a one-byte `Error` token — the
`else` branch (lines 118-121) only advances the index. -/
theorem C3_counterexample :
    tokenize ("#") = Except.ok [] ∧
      tokenize ("#") ≠ Except.ok [create_token TokenType.Error ("#") 0 1] :=
  ⟨rfl, fun h => List.noConfusion (Except.ok.inj h)⟩

/-- C3 (amended): whenever no rule matches at the current position, the
scan advances the cursor by one byte WITHOUT emitting any token (the byte
is silently dropped), and consequently no `Error` token ever occurs in any
returned sequence.  The scan does continue afterwards when the skipped
character was a single byte. -/
theorem C3_silent_skip :
    (∀ (fuel : Nat) (c : Char) (cs : List Char) (i : Nat),
        ruleMatch (c :: cs) = none → c.utf8Size = 1 →
        tokenizeFuel (fuel + 1) (c :: cs) i = tokenizeFuel fuel cs (i + 1)) ∧
      ∀ (s : String) (ts : List Token), tokenize s = Except.ok ts →
        ∀ t ∈ ts, t.token_type ≠ TokenType.Error := by
  constructor
  · intro fuel c cs i hrule hsize
    simp [tokenizeFuel, hrule, hsize]
  · exact fun _ _ h t ht => (tokenizeFuel_mem _ _ _ _ h t ht).2.2.2.2.2

/-- C3 witness at the concrete unscannable byte hash mark. -/
theorem C3_witness :
    tokenizeFuel 1 ['#'] 0 = tokenizeFuel 0 [] 1 ∧
      (create_token TokenType.ModelKeyword ("model") 0 5).token_type ≠
        TokenType.Error :=
  ⟨C3_silent_skip.1 0 '#' [] 0 rfl rfl,
   C3_silent_skip.2 ("model") [create_token TokenType.ModelKeyword ("model") 0 5]
     rfl _ (by simp)⟩

/-- C4: the claim is refuted by the code (code bug).  On the one-character
two-byte input é no rule matches, `index += 1` lands inside the character,
and the next iteration's slice `&source_code[index..]` panics: `tokenize`
does not return normally.  (The repository's spec intends totality.) -/
theorem C4_panics_on_multibyte : tokenize ("é") = Except.error () := rfl

/-- C5 counterexample: `tokenize` of the input model-space-Name returns
exactly TWO tokens (`Model`, then `Identifier`), not the three the claim
asserts: there is no whitespace rule and `TokenType` has no Whitespace
variant, so the space produces no token at all. -/
theorem C5_counterexample :
    Except.map List.length (tokenize ("model Name")) = Except.ok 2 := rfl

/-- C5 (amended): keywords are matched only as whole words — the keyword
alone lexes as one `Model` token and a longer identifier beginning with a
keyword lexes as one `Identifier` token; but in the space-separated case
the space is silently skipped, yielding `Model` directly followed by
`Identifier` with a one-byte gap and NO whitespace token between them. -/
theorem C5_keyword_boundary :
    tokenize ("model") =
        Except.ok [create_token TokenType.ModelKeyword ("model") 0 5] ∧
      tokenize ("modelName") =
        Except.ok [create_token TokenType.Identifier ("modelName") 0 9] ∧
      tokenize ("model Name") =
        Except.ok [create_token TokenType.ModelKeyword ("model") 0 5,
          create_token TokenType.Identifier ("Name") 6 10] :=
  ⟨rfl, rfl, rfl⟩

/-- C6: string literals take priority over keyword matching — the keyword
plugin enclosed in double quotes lexes as exactly one `StringLiteral`
token spanning all eight bytes, and in particular no `Plugin` token. -/
theorem C6_string_literal_priority :
    tokenize ("\"plugin\"") =
      Except.ok [create_token TokenType.StringLiteral ("\"plugin\"") 0 8] := rfl

/-- C7: the four-byte input LF CR LF CR lexes as four separate one-byte
`LineBreak` tokens in order, never merged and never any other kind. -/
theorem C7_line_breaks :
    tokenize ("\n\r\n\r") =
      Except.ok
        [create_token TokenType.LineBreak ("\n") 0 1,
         create_token TokenType.LineBreak ("\r") 1 2,
         create_token TokenType.LineBreak ("\n") 2 3,
         create_token TokenType.LineBreak ("\r") 3 4] := rfl

/-- C8: the claim is refuted by the code (code bug).  There is no number
rule at all in `tokenize`: digits and minus signs match no rule and are
silently skipped, so these inputs produce NO tokens — no `NumberLiteral`
is ever emitted.  The repository's own test `tokenize_integers` (lines
249-270) asserts `NumberLiteral` tokens for the third input and fails. -/
theorem C8_no_number_tokens :
    tokenize ("-4") = Except.ok [] ∧ tokenize ("4-4") = Except.ok [] ∧
      tokenize ("4 44 444 -4 -44") = Except.ok [] :=
  ⟨rfl, rfl, rfl⟩

/-- C9: every rule match consumes at least one character, and fuel equal
to the input length always suffices: running the scan loop with any
iteration budget of at least the input length gives the same result as
`tokenize`, i.e. the loop terminates within N iterations on input of
length N. -/
theorem C9_termination :
    (∀ (cs : List Char) (n : Nat) (tt : TokenType),
        ruleMatch cs = some (n, tt) → 1 ≤ n) ∧
      ∀ (s : String) (fuel : Nat), s.data.length ≤ fuel →
        tokenizeFuel fuel s.data 0 = tokenize s :=
  ⟨fun _ _ _ h => (ruleMatch_spec h).1,
   fun s fuel h => tokenizeFuel_congr fuel s.data.length s.data 0 h (Nat.le_refl _)⟩

/-- C9 witness at concrete inputs. -/
theorem C9_witness :
    1 ≤ 5 ∧ tokenizeFuel 12 ("model Name").data 0 = tokenize ("model Name") :=
  ⟨C9_termination.1 ("model").data 5 TokenType.ModelKeyword rfl,
   C9_termination.2 ("model Name") 12 (by decide)⟩

/-- C10: every token emitted by a returning run of `tokenize` has a
well-formed span: its text is the byte slice of the source at
`[start, stop)`, `stop` is strictly greater than `start` and at most the
byte length of the source, and consecutive spans never overlap — each
token's start is at least the previous token's stop, gaps permitted. -/
theorem C10_token_spans (s : String) (ts : List Token)
    (h : tokenize s = Except.ok ts) :
    List.Chain' (fun a b => a.stop ≤ b.start) ts ∧
      ∀ t ∈ ts, t.start < t.stop ∧ t.stop ≤ utf8Len s.data ∧
        t.value.data = byteSlice s t.start t.stop := by
  refine ⟨tokenizeFuel_chain _ _ _ _ h, ?_⟩
  intro t ht
  obtain ⟨h1, h2, h3, h4, _, _⟩ := tokenizeFuel_mem _ _ _ _ h t ht
  refine ⟨h2, by omega, ?_⟩
  unfold byteSlice
  simpa using h4

/-- C10 witness at an input with a skipped byte between the two spans. -/
theorem C10_witness :
    List.Chain' (fun a b => a.stop ≤ b.start)
        [create_token TokenType.ModelKeyword ("model") 0 5,
         create_token TokenType.Identifier ("Name") 6 10] ∧
      ∀ t ∈ [create_token TokenType.ModelKeyword ("model") 0 5,
          create_token TokenType.Identifier ("Name") 6 10],
        t.start < t.stop ∧ t.stop ≤ utf8Len ("model Name").data ∧
          t.value.data = byteSlice ("model Name") t.start t.stop :=
  C10_token_spans ("model Name")
    [create_token TokenType.ModelKeyword ("model") 0 5,
     create_token TokenType.Identifier ("Name") 6 10] rfl
